import Mathlib

/-!
Verification of the ultimate-bot dashboard subsystem (indicator library,
chart renderer, status projection, event cue dispatcher).

The embedding follows the TypeScript source (src/frontend/src/pages/Dashboard.tsx
and the unnamed historical variants, chiefly src/unnamed/part_004):
JavaScript numbers are modelled as exact rationals, arrays as lists,
null as Option.none, and the imperative loops as structurally recursive
functions with explicit state.
-/

set_option maxHeartbeats 1000000

namespace UltimateBot

/-- Model of the small epsilon 1e-8 used by the source as a volume / range floor. -/
def eps : ℚ := 1 / 100000000

/-- Candle record from the source. The field opn models the field named open
(a Lean keyword); volume is optional, as in the source type. -/
structure Candle where
  time : ℕ
  opn : ℚ
  high : ℚ
  low : ℚ
  close : ℚ
  volume : Option ℚ
deriving DecidableEq, Repr

/-- UTC calendar day of an epoch-seconds timestamp. The source computes
new Date(time * 1000).toISOString().slice(0, 10); for nonnegative epoch
seconds two timestamps yield the same ISO date string iff they lie in the
same 86400-second bucket, so the day is modelled as time / 86400. -/
def utcDay (t : ℕ) : ℕ := t / 86400

/-- Typical price (h+l+c)/3 as in both sessionVWAP variants. -/
def tp (c : Candle) : ℚ := (c.high + c.low + c.close) / 3

/-- Effective volume Math.max(1e-8, c.volume ?? dflt). The part_004 variant
uses dflt = 1, the Dashboard.tsx variant uses dflt = 0. -/
def vEff (dflt : ℚ) (c : Candle) : ℚ := max eps (c.volume.getD dflt)

/-- Accumulator state of the sessionVWAP loop: current day string (modelled
by its day number), price*volume sum pv and volume sum vv. -/
structure VState where
  day : Option ℕ
  pv : ℚ
  vv : ℚ
deriving DecidableEq, Repr

/-- One iteration of the sessionVWAP loop body: reset (pv, vv) when the
UTC day changes, accumulate tp*v and v, output pv / max(1e-8, vv). -/
def vwapStep (dflt : ℚ) (st : VState) (c : Candle) : VState × ℚ :=
  let d := utcDay c.time
  let pv0 := if st.day = some d then st.pv else 0
  let vv0 := if st.day = some d then st.vv else 0
  let v := vEff dflt c
  let pv1 := pv0 + tp c * v
  let vv1 := vv0 + v
  (⟨some d, pv1, vv1⟩, pv1 / max eps vv1)

/-- The sessionVWAP loop run from a given accumulator state. -/
def vwapRun (dflt : ℚ) (st : VState) : List Candle → List (Option ℚ)
  | [] => []
  | c :: t =>
    let p := vwapStep dflt st c
    some p.2 :: vwapRun dflt p.1 t

/-- buildSessionVWAPArray from Dashboard.tsx (volume default 0). -/
def buildSessionVWAPArray (cs : List Candle) : List (Option ℚ) :=
  vwapRun 0 ⟨none, 0, 0⟩ cs

/-- sessionVWAP from part_004 (volume default 1). -/
def sessionVWAP (cs : List Candle) : List (Option ℚ) :=
  vwapRun 1 ⟨none, 0, 0⟩ cs

/-- Tail of the ema loop: e is the previous EMA value, k the smoothing factor. -/
def emaAux (k : ℚ) (e : ℚ) : List ℚ → List (Option ℚ)
  | [] => []
  | x :: t =>
    let e2 := x * k + e * (1 - k)
    some e2 :: emaAux k e2 t

/-- The ema function from part_004: empty input gives an empty output;
otherwise the output is seeded with the first sample and follows
e = x*k + e*(1-k) with k = 2/(len+1). -/
def ema (src : List ℚ) (len : ℕ) : List (Option ℚ) :=
  match src with
  | [] => []
  | x :: t => some x :: emaAux (2 / ((len : ℚ) + 1)) x t

/-- Index-weighted sum win.reduce((a, b, idx) => a + idx * b, 0), with j the
index of the first element. The source call starts at j = 0. -/
def sumXYAux (j : ℕ) : List ℚ → ℚ
  | [] => 0
  | x :: t => (j : ℚ) * x + sumXYAux (j + 1) t

/-- The x-values list Array.from(\x7blength: len\x7d, (_, i) => i) of linreg. -/
def linregXs (len : ℕ) : List ℚ := (List.range len).map (fun j : ℕ => (j : ℚ))

/-- sumX = xs.reduce((a, b) => a + b, 0) in linreg. -/
def linregSumX (len : ℕ) : ℚ := (linregXs len).foldl (· + ·) 0

/-- sumXX = xs.reduce((a, b) => a + b * b, 0) in linreg. -/
def linregSumXX (len : ℕ) : ℚ := (linregXs len).foldl (fun a b => a + b * b) 0

/-- The OLS denominator n * sumXX - sumX * sumX of linreg, a function of the
period only since the x-values are the fixed list 0..len-1. -/
def linregDenom (len : ℕ) : ℚ :=
  (len : ℚ) * linregSumXX len - linregSumX len * linregSumX len

/-- Body of the linreg loop at index i (only reached for len - 1 <= i):
window src.slice(i - len + 1, i + 1), OLS slope and intercept, projected
value m * (len - 1) + b; the denom === 0 branch leaves the entry null. -/
def linregAt (src : List ℚ) (len : ℕ) (i : ℕ) : Option ℚ :=
  let win := (src.drop (i + 1 - len)).take len
  let sumY := win.foldl (· + ·) 0
  let sumXY := sumXYAux 0 win
  let sumX := linregSumX len
  let denom := linregDenom len
  if denom = 0 then none
  else
    let m := ((len : ℚ) * sumXY - sumX * sumY) / denom
    let b := (sumY - m * sumX) / (len : ℚ)
    some (m * ((len : ℚ) - 1) + b)

/-- The linreg function from part_004: an all-null array when the series is
shorter than the period, otherwise null before index len - 1 and the OLS
projection from index len - 1 on. -/
def linreg (src : List ℚ) (len : ℕ) : List (Option ℚ) :=
  if src.length < len then List.replicate src.length none
  else (List.range src.length).map (fun i => if i + 1 < len then none else linregAt src len i)

/-- Modelled from the spec: the repository has no Donchian implementation under
src (the spec S4.1 describes Donchian(candles, period) but no source file
contains it). Window of index i: the clamped range [max(0, i-period+1), i]. -/
def donchianWin (l : List ℚ) (period i : ℕ) : List ℚ :=
  let a := i + 1 - period
  (l.drop a).take (i + 1 - a)

/-- Modelled from the spec: rolling highest value over the clamped trailing
window, one entry per input index, with the first period-1 entries computed
over the shorter clamped window rather than being null. -/
def donchianHigh (hs : List ℚ) (period : ℕ) : List (Option ℚ) :=
  (List.range hs.length).map (fun i => (donchianWin hs period i).max?)

/-- Modelled from the spec: rolling lowest value, the low half of the channel. -/
def donchianLow (ls : List ℚ) (period : ℕ) : List (Option ℚ) :=
  (List.range ls.length).map (fun i => (donchianWin ls period i).min?)

/-- Log line record: epoch-seconds timestamp and free text. -/
structure LogLine where
  ts : ℕ
  text : String
deriving DecidableEq, Repr

/-- Helper: needle begins the hay character list. -/
def charsBeginWith : List Char → List Char → Bool
  | _, [] => true
  | [], _ :: _ => false
  | a :: hs, b :: ns => (a == b) && charsBeginWith hs ns

/-- Helper: substring containment, the semantics of String.prototype.includes. -/
def charsContain : List Char → List Char → Bool
  | [], needle => needle.isEmpty
  | a :: t, needle => charsBeginWith (a :: t) needle || charsContain t needle

/-- String containment, hay.includes(needle). -/
def strIncludes (hay needle : String) : Bool :=
  charsContain hay.toList needle.toList

/-- The four audio cue classes of the blip function in part_004. -/
inductive CueKind
  | openLong
  | openShort
  | take
  | stop
deriving DecidableEq, Repr

/-- The fetchLogs handler of part_004 (lines 104-123): it stores the fetched
batch via setLogs and sets lastLogTsRef.current to the ts of the last line of
the batch (0 when the batch is empty, from the pattern ?.ts || 0). The handler
contains no call to blip, so the list of cues it fires is empty; the second
component of the result records exactly the cues fired during the handler. -/
def fetchLogsUpdate (batch : List LogLine) (_wm : ℕ) :
    (List LogLine × ℕ) × List CueKind :=
  ((batch, (batch.getLast?.map (fun l => l.ts)).getD 0), [])

/-- Classification of a close event in the position-transition watcher of
part_004 (lines 67-81): look at the last log line text; Close TAKE means a
take cue, Close STOP a stop cue, anything else defaults to stop. -/
def classifyClose (recent : String) : CueKind :=
  if strIncludes recent "Close TAKE" then .take
  else if strIncludes recent "Close STOP" then .stop
  else .stop

/-- The position-transition cue watcher of part_004 (lines 67-81): an open
cue keyed by side when the position appears, a close cue classified from the
last log line when it disappears, nothing otherwise. The side is the string
field of the position; any side other than long sounds open-short. -/
def posTransitionCues (prev cur : Option String) (logs : List LogLine) : List CueKind :=
  match prev, cur with
  | none, some side => [if side = "long" then .openLong else .openShort]
  | some _, none => [classifyClose ((logs.getLast?.map (fun l => l.text)).getD "")]
  | _, _ => []

/-- Modelled from the spec (claim C1 wording, S4.4): the per-log-line cue
classification table OPEN BUY to open-long, OPEN SELL to open-short,
CLOSE ... TAKE to take-profit, CLOSE ... STOP to stop-loss. This definition
exists only to be compared with the code; no source file implements it. -/
def claimedClassify (text : String) : Option CueKind :=
  if strIncludes text "OPEN BUY" then some .openLong
  else if strIncludes text "OPEN SELL" then some .openShort
  else if strIncludes text "CLOSE" && strIncludes text "TAKE" then some .take
  else if strIncludes text "CLOSE" && strIncludes text "STOP" then some .stop
  else none

/-- Modelled from the spec (claim C1 wording): the cues a log poll is claimed
to fire: classify every line with ts strictly above the watermark. -/
def claimedLogPollCues (batch : List LogLine) (wm : ℕ) : List CueKind :=
  (batch.filter (fun l => wm < l.ts)).filterMap (fun l => claimedClassify l.text)

/-- The derived display tone: Dashboard.tsx line 457 (glowTone) and
App.tsx line 57 (tone), both of the shape
!autoTrade ? gray : pos ? (side === long ? green : red) : orange.
The position is modelled by its side string (present iff a trade is open). -/
def glowTone (autoTrade : Bool) (pos : Option String) : String :=
  if !autoTrade then "gray"
  else
    match pos with
    | some side => if side = "long" then "green" else "red"
    | none => "orange"

/-- A canvas path command of the overlay polyline loop. Coordinates are
abstracted to the sample index i and value v; the source maps them through
the strictly monotone affine transforms x(i) = padL + (i - start)*xPer + xPer/2
and y(v), so path connectivity is fully determined by (i, v). -/
inductive PathCmd
  | move (i : ℕ) (v : ℚ)
  | line (i : ℕ) (v : ℚ)
deriving DecidableEq, Repr

/-- The overlay polyline loop body over a list of remaining indices, carrying
the started flag: a null sample is skipped (continue), the first non-null
sample issues moveTo, every later non-null sample issues lineTo. -/
def pathFrom (data : List (Option ℚ)) (idxs : List ℕ) (started : Bool) : List PathCmd :=
  match idxs with
  | [] => []
  | i :: t =>
    match data.getD i none with
    | none => pathFrom data t started
    | some v => (if started then .line i v else .move i v) :: pathFrom data t true

/-- The full overlay polyline of one overlay: the loop runs i from start while
i < n and i < data.length, with started initially false (Dashboard.tsx
lines 349-366; the part_004 loop at lines 249-264 is identical in structure). -/
def overlayPath (data : List (Option ℚ)) (start n : ℕ) : List PathCmd :=
  pathFrom data (((List.range (min n data.length)).drop start)) false

/-- The straight segments a command list makes a canvas stroke draw: a lineTo
from the current point appends a segment; moveTo only relocates the current
point (a lineTo without a current point acts as moveTo per the canvas spec,
a case the overlay loop never produces). -/
def segsFrom (cur : Option (ℕ × ℚ)) : List PathCmd → List ((ℕ × ℚ) × (ℕ × ℚ))
  | [] => []
  | .move i v :: t => segsFrom (some (i, v)) t
  | .line i v :: t =>
    match cur with
    | some p => (p, (i, v)) :: segsFrom (some (i, v)) t
    | none => segsFrom (some (i, v)) t

/-- Segments of a path started with no current point. -/
def pathSegments (cmds : List PathCmd) : List ((ℕ × ℚ) × (ℕ × ℚ)) :=
  segsFrom none cmds

/-- The non-null samples of data at the given indices, in order, as
(index, value) pairs. -/
def vertsOf (data : List (Option ℚ)) (idxs : List ℕ) : List (ℕ × ℚ) :=
  idxs.filterMap (fun i => (data.getD i none).map (fun v => (i, v)))

/-- The non-null samples of an overlay in the visible index range, in order,
as (index, value) pairs: the vertices the polyline loop actually plots. -/
def overlayVertices (data : List (Option ℚ)) (start n : ℕ) : List (ℕ × ℚ) :=
  vertsOf data ((List.range (min n data.length)).drop start)

/-- Left fold of the price-range lower bound: lo starts at Infinity (modelled
none) and takes Math.min with every contributed value. -/
def optMin (vals : List ℚ) : Option ℚ :=
  vals.foldl (fun acc x => some (acc.elim x (fun a => min a x))) none

/-- Left fold of the price-range upper bound: hi starts at -Infinity (modelled
none) and takes Math.max with every contributed value. -/
def optMax (vals : List ℚ) : Option ℚ :=
  vals.foldl (fun acc x => some (acc.elim x (fun a => max a x))) none

/-- The overlay samples visible to the range scan: indices from start while
i < min(n, data.length), null samples skipped. -/
def visVals (data : List (Option ℚ)) (start n : ℕ) : List ℚ :=
  (((List.range (min n data.length)).drop start)).filterMap (fun i => data.getD i none)

/-- All values the range scan of drawChart folds over: visible candle lows
(for lo) or highs (for hi), then every visible overlay sample. -/
def rangeLo (candles : List Candle) (overlays : List (List (Option ℚ))) (start n : ℕ) : Option ℚ :=
  optMin (((candles.take n).drop start).map (fun c => c.low)
    ++ overlays.flatMap (fun ov => visVals ov start n))

/-- Upper bound of the visible price range, see rangeLo. -/
def rangeHi (candles : List Candle) (overlays : List (List (Option ℚ))) (start n : ℕ) : Option ℚ :=
  optMax (((candles.take n).drop start).map (fun c => c.high)
    ++ overlays.flatMap (fun ov => visVals ov start n))

/-- The bad-range guard !isFinite(lo) || !isFinite(hi) || hi <= lo: an Option
none bound is exactly a still-infinite fold result. -/
def rangeBad (lo hi : Option ℚ) : Bool :=
  match lo, hi with
  | some l, some h => h ≤ l
  | _, _ => true

/-- Outcome of one drawChart call: earlySkip is the return before clearRect
when the candle list is empty, placeholder is painted by the caller when
fewer than 5 candles exist, aborted is the return at the bad-range guard,
and drawn records the visible candle count, each overlay polyline, and the
highlight side of the border. -/
inductive DrawPass
  | earlySkip
  | placeholder
  | aborted
  | drawn (candleCount : ℕ) (paths : List (List PathCmd)) (highlight : Option String)
deriving DecidableEq, Repr

/-- Result of a draw call: whether clearRect ran on this pass before any
drawing, and what the pass produced. -/
structure RenderResult where
  cleared : Bool
  pass : DrawPass
deriving DecidableEq, Repr

/-- drawChart from Dashboard.tsx (lines 266-384): empty input returns before
clearing; otherwise the canvas is cleared, the visible range is computed over
the trailing limit candles extended by overlay samples, the bad-range guard
aborts, and otherwise grid, candles, overlay polylines and highlight border
are drawn. start = Math.max(0, n - limit) is natural subtraction. -/
def drawChart (candles : List Candle) (overlays : List (List (Option ℚ)))
    (hl : Option String) (limit : ℕ) : RenderResult :=
  if candles.length = 0 then ⟨false, .earlySkip⟩
  else
    let n := candles.length
    let start := n - limit
    let lo := rangeLo candles overlays start n
    let hi := rangeHi candles overlays start n
    if rangeBad lo hi then ⟨true, .aborted⟩
    else ⟨true, .drawn (n - start) (overlays.map (fun ov => overlayPath ov start n)) hl⟩

/-- The chart draw effect of Dashboard.tsx (lines 387-412): fewer than 5
candles clears the canvas and paints the loading placeholder; otherwise the
session VWAP overlay is built and drawChart runs with the position side
mapped to the highlight (long gives BUY, anything else SELL). -/
def drawEffect (candles : List Candle) (pos : Option String) (barCount : ℕ) : RenderResult :=
  if candles.length < 5 then ⟨true, .placeholder⟩
  else
    let vwap := buildSessionVWAPArray candles
    let hl := pos.map (fun side => if side = "long" then "BUY" else "SELL")
    drawChart candles [vwap] hl barCount

/-! ### Helper lemmas -/

lemma emaAux_length (k e : ℚ) (t : List ℚ) : (emaAux k e t).length = t.length := by
  induction t generalizing e with
  | nil => rfl
  | cons x t ih => simp [emaAux, ih]

lemma ema_length (src : List ℚ) (len : ℕ) : (ema src len).length = src.length := by
  cases src with
  | nil => rfl
  | cons x t => simp [ema, emaAux_length]

lemma vwapRun_length (dflt : ℚ) (st : VState) (cs : List Candle) :
    (vwapRun dflt st cs).length = cs.length := by
  induction cs generalizing st with
  | nil => rfl
  | cons c t ih => simp [vwapRun, ih]

lemma linreg_length (src : List ℚ) (len : ℕ) : (linreg src len).length = src.length := by
  unfold linreg
  split <;> simp

lemma emaAux_ne_none (k e : ℚ) (t : List ℚ) : ∀ x ∈ emaAux k e t, x ≠ none := by
  induction t generalizing e with
  | nil => simp [emaAux]
  | cons x t ih =>
    intro y hy
    simp only [emaAux, List.mem_cons] at hy
    rcases hy with h | h
    · simp [h]
    · exact ih _ y h

lemma emaAux_recur (k : ℚ) (t : List ℚ) : ∀ (e : ℚ) (i : ℕ), i + 1 < t.length →
    (emaAux k e t).getD (i + 1) none =
      ((emaAux k e t).getD i none).map (fun a => t.getD (i + 1) 0 * k + a * (1 - k)) := by
  induction t with
  | nil => intro e i h; simp at h
  | cons x t ih =>
    intro e i h
    match i with
    | 0 =>
      cases t with
      | nil => simp at h
      | cons y t2 => simp [emaAux]
    | i + 1 =>
      have h2 : i + 1 < t.length := by
        simpa using Nat.lt_of_succ_lt_succ h
      simpa [emaAux] using ih (x * k + e * (1 - k)) i h2

/-! ### Claim theorems: status projection and indicator invariants -/

/-- Claim C8: the derived display tone is gray whenever autoTrade is false;
otherwise green for an open long position, red for an open short position,
and orange when trading is on with no open position. -/
theorem tone_spec :
    (∀ pos : Option String, glowTone false pos = "gray") ∧
    glowTone true (some "long") = "green" ∧
    glowTone true (some "short") = "red" ∧
    glowTone true none = "orange" :=
  ⟨fun _ => rfl, rfl, rfl, rfl⟩

/-- Claim C9: each indicator function returns an array whose length equals the
length of its input series. The source functions only read their input (src
and cs are never assigned through), so non-mutation is structural. -/
theorem indicator_length_spec :
    (∀ (src : List ℚ) (len : ℕ), (ema src len).length = src.length) ∧
    (∀ cs : List Candle, (sessionVWAP cs).length = cs.length) ∧
    (∀ cs : List Candle, (buildSessionVWAPArray cs).length = cs.length) ∧
    (∀ (src : List ℚ) (len : ℕ), (linreg src len).length = src.length) :=
  ⟨ema_length, fun cs => vwapRun_length 1 ⟨none, 0, 0⟩ cs,
   fun cs => vwapRun_length 0 ⟨none, 0, 0⟩ cs, linreg_length⟩

/-- Claim C6: for a non-empty series the EMA output has the length of the
input, contains no null, starts at the first sample, and follows the
recurrence out(i+1) = src(i+1)*k + out(i)*(1-k) with k = 2/(period+1). -/
theorem ema_spec (src : List ℚ) (len : ℕ) (h : src ≠ []) :
    (ema src len).length = src.length ∧
    (∀ x ∈ ema src len, x ≠ none) ∧
    (ema src len).getD 0 none = some (src.getD 0 0) ∧
    (∀ i : ℕ, i + 1 < src.length →
      (ema src len).getD (i + 1) none =
        ((ema src len).getD i none).map
          (fun e => src.getD (i + 1) 0 * (2 / ((len : ℚ) + 1))
            + e * (1 - 2 / ((len : ℚ) + 1)))) := by
  cases src with
  | nil => exact absurd rfl h
  | cons x t =>
    refine ⟨ema_length _ _, ?_, rfl, ?_⟩
    · intro y hy
      simp only [ema, List.mem_cons] at hy
      rcases hy with h1 | h1
      · simp [h1]
      · exact emaAux_ne_none _ _ _ y h1
    · intro i hi
      match i with
      | 0 =>
        cases t with
        | nil => simp at hi
        | cons y t2 => simp [ema, emaAux]
      | i + 1 =>
        have h2 : i + 1 < t.length := by
          simpa using Nat.lt_of_succ_lt_succ hi
        simpa [ema] using emaAux_recur (2 / ((len : ℚ) + 1)) t x i h2

/-- Witness for ema_spec at the concrete series [1, 2] with period 3. -/
theorem ema_spec_witness :
    (ema [(1 : ℚ), 2] 3).getD 0 none = some (([(1 : ℚ), 2]).getD 0 0) :=
  (ema_spec [(1 : ℚ), 2] 3 (by simp)).2.2.1

/-! ### Donchian channel (C3) -/

lemma foldl_max_spec (as : List ℚ) : ∀ a : ℚ,
    (as.foldl max a = a ∨ as.foldl max a ∈ as) ∧
    a ≤ as.foldl max a ∧ ∀ x ∈ as, x ≤ as.foldl max a := by
  induction as with
  | nil => simp
  | cons b bs ih =>
    intro a
    have hstep : (b :: bs).foldl max a = bs.foldl max (max a b) := rfl
    obtain ⟨hmem, hle, hall⟩ := ih (max a b)
    rw [hstep]
    refine ⟨?_, ?_, ?_⟩
    · rcases hmem with h | h
      · rcases max_choice a b with hm | hm
        · left; rw [h, hm]
        · right; rw [h, hm]; exact List.mem_cons_self _ _
      · right; exact List.mem_cons_of_mem _ h
    · exact le_trans (le_max_left a b) hle
    · intro x hx
      rcases List.mem_cons.mp hx with h | h
      · exact le_trans (h ▸ le_max_right a b) hle
      · exact hall x h

lemma max?_spec (l : List ℚ) (h : l ≠ []) :
    ∃ m, l.max? = some m ∧ m ∈ l ∧ ∀ x ∈ l, x ≤ m := by
  cases l with
  | nil => exact absurd rfl h
  | cons a as =>
    obtain ⟨hmem, hle, hall⟩ := foldl_max_spec as a
    refine ⟨as.foldl max a, rfl, ?_, ?_⟩
    · rcases hmem with h1 | h1
      · rw [h1]; exact List.mem_cons_self _ _
      · exact List.mem_cons_of_mem _ h1
    · intro x hx
      rcases List.mem_cons.mp hx with h1 | h1
      · exact h1 ▸ hle
      · exact hall x h1

lemma donchianWin_length (l : List ℚ) (period i : ℕ) (hi : i < l.length) :
    (donchianWin l period i).length = min (i + 1) period := by
  simp only [donchianWin, List.length_take, List.length_drop]
  omega

/-- Claim C3: the Donchian channel indicator (modelled from the spec; absent
from src) computes at every index the rolling maximum over the clamped window
of length min(i+1, period), never null, and on the highs [10, 12, 9] with
period 3 yields the running maxima [10, 12, 12]. -/
theorem donchian_spec (hs : List ℚ) (period : ℕ) (hp : 1 ≤ period) :
    (donchianHigh hs period).length = hs.length ∧
    (∀ i, i < hs.length → (donchianWin hs period i).length = min (i + 1) period) ∧
    (∀ i, i < hs.length → ∃ m, (donchianHigh hs period).getD i none = some m ∧
      m ∈ donchianWin hs period i ∧ ∀ x ∈ donchianWin hs period i, x ≤ m) ∧
    donchianHigh [10, 12, 9] 3 = [some 10, some 12, some 12] := by
  refine ⟨by simp [donchianHigh], fun i hi => donchianWin_length hs period i hi, ?_, by decide⟩
  intro i hi
  have hw : (donchianWin hs period i).length = min (i + 1) period :=
    donchianWin_length hs period i hi
  have hne : donchianWin hs period i ≠ [] := by
    have : 0 < (donchianWin hs period i).length := by omega
    exact List.ne_nil_of_length_pos this
  obtain ⟨m, hm, hmem, hall⟩ := max?_spec _ hne
  refine ⟨m, ?_, hmem, hall⟩
  have : (donchianHigh hs period).getD i none = (donchianWin hs period i).max? := by
    simp [donchianHigh, List.getD_eq_getElem?_getD, List.getElem?_map, List.getElem?_range, hi]
  rw [this, hm]

/-- Witness for donchian_spec at the concrete input of the spec example. -/
theorem donchian_spec_witness :
    donchianHigh [10, 12, 9] 3 = [some 10, some 12, some 12] :=
  (donchian_spec [10, 12, 9] 3 (by decide)).2.2.2

/-! ### Overlay polyline (C4) -/

lemma pathFrom_cons (data : List (Option ℚ)) (i : ℕ) (t : List ℕ) (s : Bool) :
    pathFrom data (i :: t) s = match data.getD i none with
      | none => pathFrom data t s
      | some v => (if s then PathCmd.line i v else PathCmd.move i v) :: pathFrom data t true :=
  rfl

lemma vertsOf_cons (data : List (Option ℚ)) (i : ℕ) (t : List ℕ) :
    vertsOf data (i :: t) = match data.getD i none with
      | none => vertsOf data t
      | some v => (i, v) :: vertsOf data t := by
  unfold vertsOf
  rw [List.filterMap_cons]
  cases data.getD i none <;> rfl

lemma segsFrom_pathFrom (data : List (Option ℚ)) :
    ∀ (idxs : List ℕ) (cur : Option (ℕ × ℚ)),
      segsFrom cur (pathFrom data idxs cur.isSome) =
        (cur.toList ++ vertsOf data idxs).zip ((cur.toList ++ vertsOf data idxs)).tail := by
  intro idxs
  induction idxs with
  | nil =>
    intro cur
    cases cur <;> simp [pathFrom, segsFrom, vertsOf]
  | cons i t ih =>
    intro cur
    rw [pathFrom_cons, vertsOf_cons]
    cases hd : data.getD i none with
    | none =>
      exact ih cur
    | some v =>
      cases cur with
      | none =>
        have h2 := ih (some (i, v))
        simp only [Option.isSome_some, Option.toList_some] at h2
        simpa [segsFrom] using h2
      | some p =>
        have h2 := ih (some (i, v))
        simp only [Option.isSome_some, Option.toList_some] at h2
        simpa [segsFrom] using h2

/-- Claim C4 counterexample: the overlay [1, null, 2] over the full visible
range has a null at index 1, yet the stroked path contains exactly the
segment joining the sample at index 0 to the sample at index 2 — the renderer
connects the two sides of the null gap instead of breaking the line. -/
theorem overlay_null_gap_counterexample :
    ([some (1 : ℚ), none, some 2].getD 1 none = none) ∧
    pathSegments (overlayPath [some (1 : ℚ), none, some 2] 0 3) = [((0, 1), (2, 2))] := by
  constructor
  · rfl
  · rfl

/-- Claim C4 amended: the overlay polyline connects consecutive non-null
samples in order; a null sample contributes no vertex but does not break the
line, so the nearest non-null samples on either side of a null gap are joined
by a direct segment. -/
theorem overlay_polyline_amended (data : List (Option ℚ)) (start n : ℕ) :
    pathSegments (overlayPath data start n) =
      (overlayVertices data start n).zip (overlayVertices data start n).tail := by
  have := segsFrom_pathFrom data ((List.range (min n data.length)).drop start) none
  simpa [pathSegments, overlayPath, overlayVertices] using this

/-! ### Event cue dispatcher (C1) -/

lemma classifyClose_eq (recent : String) :
    classifyClose recent =
      if strIncludes recent "Close TAKE" = true then CueKind.take else CueKind.stop := by
  unfold classifyClose
  split
  · simp_all
  · split <;> simp_all

/-- Claim C1 counterexample: with watermark 0 and the single-line batch
(ts 5, text OPEN BUY), the claimed dispatcher fires one open-long cue for the
above-watermark line, but the code fetchLogs handler fires no cue at all:
it only stores the batch and updates lastLogTsRef. -/
theorem cue_dispatcher_counterexample :
    (fetchLogsUpdate [⟨5, "OPEN BUY"⟩] 0).2 = [] ∧
    claimedLogPollCues [⟨5, "OPEN BUY"⟩] 0 = [CueKind.openLong] := by
  refine ⟨rfl, ?_⟩
  rfl

/-- Claim C1 amended: a log poll fires no audio cues whatsoever and sets the
watermark to the ts of the last line of the batch (0 when the batch is
empty); the watermark is never consulted. Audio cues fire only on
position-presence transitions: an open cue keyed by side when a position
appears, and on disappearance a close cue classified from the last log line
text (take-profit iff it contains Close TAKE, stop-loss otherwise); hence
replaying any log batch, watermarked or not, fires zero cues. -/
theorem cue_dispatcher_amended :
    (∀ (batch : List LogLine) (wm : ℕ),
      (fetchLogsUpdate batch wm).2 = [] ∧
      (fetchLogsUpdate batch wm).1.2 = ((batch.getLast?.map (fun l => l.ts)).getD 0)) ∧
    (∀ (side : String) (logs : List LogLine),
      posTransitionCues none (some side) logs =
        [if side = "long" then CueKind.openLong else CueKind.openShort]) ∧
    (∀ (side : String) (logs : List LogLine),
      posTransitionCues (some side) none logs =
        [if strIncludes ((logs.getLast?.map (fun l => l.text)).getD "") "Close TAKE" = true
          then CueKind.take else CueKind.stop]) ∧
    (∀ (p q : Option String) (logs : List LogLine),
      (p.isSome ↔ q.isSome) → posTransitionCues p q logs = []) := by
  refine ⟨fun batch wm => ⟨rfl, rfl⟩, fun side logs => rfl, ?_, ?_⟩
  · intro side logs
    simp [posTransitionCues, classifyClose_eq]
  · intro p q logs h
    cases p <;> cases q <;> simp_all [posTransitionCues]

/-- Witness for cue_dispatcher_amended: no transition means no cue. -/
theorem cue_dispatcher_amended_witness :
    posTransitionCues none none [] = [] :=
  cue_dispatcher_amended.2.2.2 none none [] (by simp)

/-! ### Session VWAP (C2) -/

/-- Cumulative numerator of the VWAP formula of the claim: sum of tp*v. -/
def tpvSum (dflt : ℚ) (cs : List Candle) : ℚ :=
  (cs.map (fun c => tp c * vEff dflt c)).sum

/-- Cumulative denominator of the VWAP formula of the claim: sum of floored
volumes. -/
def volSum (dflt : ℚ) (cs : List Candle) : ℚ :=
  (cs.map (fun c => vEff dflt c)).sum

/-- Final accumulator state after folding the sessionVWAP loop over a list. -/
def vwapFinal (dflt : ℚ) (st : VState) (cs : List Candle) : VState :=
  cs.foldl (fun s c => (vwapStep dflt s c).1) st

lemma eps_pos : 0 < eps := by norm_num [eps]

lemma eps_le_vEff (dflt : ℚ) (c : Candle) : eps ≤ vEff dflt c := le_max_left _ _

lemma vwapRun_ne_none (dflt : ℚ) (st : VState) (cs : List Candle) :
    ∀ x ∈ vwapRun dflt st cs, x ≠ none := by
  induction cs generalizing st with
  | nil => simp [vwapRun]
  | cons c t ih =>
    intro x hx
    simp only [vwapRun, List.mem_cons] at hx
    rcases hx with h | h
    · simp [h]
    · exact ih _ x h

lemma vwapRun_sameDay (dflt : ℚ) (D : ℕ) (cs : List Candle) :
    ∀ (P V : ℚ), (∀ c ∈ cs, utcDay c.time = D) → eps ≤ V →
      ∀ i, i < cs.length →
        (vwapRun dflt ⟨some D, P, V⟩ cs).getD i none =
          some ((P + tpvSum dflt (cs.take (i + 1))) / (V + volSum dflt (cs.take (i + 1)))) := by
  induction cs with
  | nil => intro P V _ _ i hi; simp at hi
  | cons c t ih =>
    intro P V hday hV i hi
    have hcD : utcDay c.time = D := hday c (List.mem_cons_self _ _)
    have hv0 : eps ≤ vEff dflt c := eps_le_vEff dflt c
    have hstep : vwapStep dflt ⟨some D, P, V⟩ c =
        (⟨some D, P + tp c * vEff dflt c, V + vEff dflt c⟩,
          (P + tp c * vEff dflt c) / max eps (V + vEff dflt c)) := by
      simp [vwapStep, hcD]
    have hmax : max eps (V + vEff dflt c) = V + vEff dflt c := by
      apply max_eq_right
      have := eps_pos
      linarith
    match i with
    | 0 =>
      simp only [vwapRun, hstep, List.getD_cons_zero, List.take_succ_cons, List.take_zero]
      rw [hmax]
      simp [tpvSum, volSum]
    | i + 1 =>
      have hrec := ih (P + tp c * vEff dflt c) (V + vEff dflt c)
        (fun x hx => hday x (List.mem_cons_of_mem _ hx))
        (le_trans hV (by linarith [le_trans eps_pos.le hv0])) i (by simpa using Nat.lt_of_succ_lt_succ hi)
      simp only [vwapRun, hstep, List.getD_cons_succ, List.take_succ_cons]
      rw [hrec]
      have h1 : tpvSum dflt (c :: t.take (i + 1)) = tp c * vEff dflt c + tpvSum dflt (t.take (i + 1)) := by
        simp [tpvSum]
      have h2 : volSum dflt (c :: t.take (i + 1)) = vEff dflt c + volSum dflt (t.take (i + 1)) := by
        simp [volSum]
      rw [h1, h2]
      ring_nf

lemma vwapRun_append (dflt : ℚ) (st : VState) (l1 l2 : List Candle) :
    vwapRun dflt st (l1 ++ l2) =
      vwapRun dflt st l1 ++ vwapRun dflt (vwapFinal dflt st l1) l2 := by
  induction l1 generalizing st with
  | nil => simp [vwapRun, vwapFinal]
  | cons c t ih => simp [vwapRun, vwapFinal, ih]

lemma vwapFinal_day (dflt : ℚ) (l : List Candle) :
    ∀ (st : VState), l ≠ [] →
      (vwapFinal dflt st l).day = l.getLast?.map (fun c => utcDay c.time) := by
  induction l with
  | nil => intro st h; exact absurd rfl h
  | cons c t ih =>
    intro st _
    cases t with
    | nil => simp [vwapFinal, vwapStep]
    | cons c2 t2 =>
      have h2 := ih ((vwapStep dflt st c).1) (by simp)
      have hfin : vwapFinal dflt st (c :: c2 :: t2) =
          vwapFinal dflt ((vwapStep dflt st c).1) (c2 :: t2) := rfl
      rw [hfin, h2, List.getLast?_cons_cons]

/-- Claim C2: the session VWAP output is never null; within one UTC day the
output at index i is the cumulative sum of tp*v divided by the cumulative sum
of floored volumes over the day so far; and at a day-boundary candle with
positive volume the output equals that candle's own typical price. -/
theorem vwap_spec :
    (∀ cs : List Candle, ∀ x ∈ buildSessionVWAPArray cs, x ≠ none) ∧
    (∀ (D : ℕ) (cs : List Candle), (∀ c ∈ cs, utcDay c.time = D) →
      ∀ i, i < cs.length →
        (buildSessionVWAPArray cs).getD i none =
          some (tpvSum 0 (cs.take (i + 1)) / volSum 0 (cs.take (i + 1)))) ∧
    (∀ (pre : List Candle) (c : Candle) (suf : List Candle),
      pre.getLast?.map (fun p => utcDay p.time) ≠ some (utcDay c.time) →
      0 < c.volume.getD 0 →
      (buildSessionVWAPArray (pre ++ c :: suf)).getD pre.length none = some (tp c)) := by
  refine ⟨fun cs => vwapRun_ne_none 0 _ cs, ?_, ?_⟩
  · intro D cs hday i hi
    cases cs with
    | nil => simp at hi
    | cons c t =>
      have hcD : utcDay c.time = D := hday c (List.mem_cons_self _ _)
      have hv0 : eps ≤ vEff 0 c := eps_le_vEff 0 c
      have hstep : vwapStep 0 ⟨none, 0, 0⟩ c =
          (⟨some D, 0 + tp c * vEff 0 c, 0 + vEff 0 c⟩,
            (0 + tp c * vEff 0 c) / max eps (0 + vEff 0 c)) := by
        simp [vwapStep, hcD]
      have hmax : max eps (0 + vEff 0 c) = 0 + vEff 0 c := by
        apply max_eq_right; linarith
      match i with
      | 0 =>
        simp only [buildSessionVWAPArray, vwapRun, hstep, List.getD_cons_zero,
          List.take_succ_cons, List.take_zero]
        rw [hmax]
        simp [tpvSum, volSum]
      | i + 1 =>
        have hrec := vwapRun_sameDay 0 D t (0 + tp c * vEff 0 c) (0 + vEff 0 c)
          (fun x hx => hday x (List.mem_cons_of_mem _ hx))
          (by linarith) i (by simpa using Nat.lt_of_succ_lt_succ hi)
        simp only [buildSessionVWAPArray, vwapRun, hstep, List.getD_cons_succ,
          List.take_succ_cons]
        rw [hrec]
        have h1 : tpvSum 0 (c :: t.take (i + 1)) = tp c * vEff 0 c + tpvSum 0 (t.take (i + 1)) := by
          simp [tpvSum]
        have h2 : volSum 0 (c :: t.take (i + 1)) = vEff 0 c + volSum 0 (t.take (i + 1)) := by
          simp [volSum]
        rw [h1, h2]
        ring_nf
  · intro pre c suf hday _hv
    have hsplit := vwapRun_append 0 ⟨none, 0, 0⟩ pre (c :: suf)
    have hlen : (vwapRun 0 ⟨none, 0, 0⟩ pre).length = pre.length := vwapRun_length 0 _ pre
    have hdayfin : (vwapFinal 0 ⟨none, 0, 0⟩ pre).day ≠ some (utcDay c.time) := by
      cases pre with
      | nil => simp [vwapFinal]
      | cons p t =>
        rw [vwapFinal_day 0 (p :: t) ⟨none, 0, 0⟩ (by simp)]
        exact hday
    have hstep : (vwapStep 0 (vwapFinal 0 ⟨none, 0, 0⟩ pre) c).2 =
        (0 + tp c * vEff 0 c) / max eps (0 + vEff 0 c) := by
      simp [vwapStep, hdayfin]
    have hv0 : eps ≤ vEff 0 c := eps_le_vEff 0 c
    have hmax : max eps (0 + vEff 0 c) = 0 + vEff 0 c := by
      apply max_eq_right; linarith
    have hvne : vEff 0 c ≠ 0 := by
      have := eps_pos
      intro h0
      rw [h0] at hv0
      linarith
    rw [buildSessionVWAPArray, hsplit, ← hlen,
      List.getD_append_right _ _ _ _ (le_refl _), Nat.sub_self]
    cases hsc : vwapStep 0 (vwapFinal 0 ⟨none, 0, 0⟩ pre) c with
    | mk st2 out =>
      have hout : out = (0 + tp c * vEff 0 c) / max eps (0 + vEff 0 c) := by
        rw [← hstep, hsc]
      simp only [vwapRun, hsc, List.getD_cons_zero]
      rw [hout, hmax]
      rw [zero_add, zero_add, mul_div_assoc, div_self hvne, mul_one]

/-- Witness for vwap_spec: one candle of day 0 with volume 5; its VWAP entry
is the one-element cumulative quotient, and as a day-boundary candle it
equals its own typical price. -/
theorem vwap_spec_witness :
    (buildSessionVWAPArray [⟨0, 1, 3, 1, 2, some 5⟩]).getD 0 none =
      some (tpvSum 0 (([(⟨0, 1, 3, 1, 2, some 5⟩ : Candle)]).take 1) /
        volSum 0 (([(⟨0, 1, 3, 1, 2, some 5⟩ : Candle)]).take 1)) ∧
    (buildSessionVWAPArray ([] ++ (⟨0, 1, 3, 1, 2, some 5⟩ : Candle) :: [])).getD 0 none =
      some (tp ⟨0, 1, 3, 1, 2, some 5⟩) :=
  ⟨vwap_spec.2.1 0 [⟨0, 1, 3, 1, 2, some 5⟩] (by decide) 0 (by decide),
   vwap_spec.2.2 [] ⟨0, 1, 3, 1, 2, some 5⟩ [] (by decide) (by norm_num)⟩

/-! ### Chart renderer guards (C5) -/

/-- Claim C5: with fewer than 5 candles the draw effect paints only the
loading placeholder; with at least 5 candles and a bad visible range (a
non-finite bound or hi <= lo) the pass aborts after clearing, drawing
nothing further; and in every case the canvas is cleared before drawing, so
no partially drawn frame from a previous pass survives. The embedding is a
total function, which models the absence of exceptions. -/
theorem chart_guard_spec (candles : List Candle) (pos : Option String) (barCount : ℕ) :
    (drawEffect candles pos barCount).cleared = true ∧
    (candles.length < 5 → drawEffect candles pos barCount = ⟨true, .placeholder⟩) ∧
    (5 ≤ candles.length →
      rangeBad
        (rangeLo candles [buildSessionVWAPArray candles] (candles.length - barCount) candles.length)
        (rangeHi candles [buildSessionVWAPArray candles] (candles.length - barCount) candles.length)
        = true →
      drawEffect candles pos barCount = ⟨true, .aborted⟩) := by
  refine ⟨?_, ?_, ?_⟩
  · by_cases h : candles.length < 5
    · simp [drawEffect, h]
    · have h1 : ¬ candles.length = 0 := by omega
      simp only [drawEffect, drawChart, h, if_false, h1, if_true]
      split <;> rfl
  · intro h
    simp [drawEffect, h]
  · intro h5 hbad
    have h0 : ¬ candles.length < 5 := by omega
    have h1 : ¬ candles.length = 0 := by omega
    simp only [drawEffect, drawChart, h0, if_false, h1, if_true]
    simp [hbad]

/-- Witness for chart_guard_spec: the empty series yields the placeholder and
five identical flat candles produce the aborted pass. -/
theorem chart_guard_spec_witness :
    drawEffect ([] : List Candle) none 150 = ⟨true, DrawPass.placeholder⟩ ∧
    drawEffect [⟨0, 1, 1, 1, 1, some 1⟩, ⟨0, 1, 1, 1, 1, some 1⟩, ⟨0, 1, 1, 1, 1, some 1⟩,
        ⟨0, 1, 1, 1, 1, some 1⟩, ⟨0, 1, 1, 1, 1, some 1⟩] none 150 =
      ⟨true, DrawPass.aborted⟩ := by
  constructor
  · exact (chart_guard_spec [] none 150).2.1 (by decide)
  · apply (chart_guard_spec _ none 150).2.2 (by decide)
    have e1 : max eps (1 : ℚ) = 1 := max_eq_right (by norm_num [eps])
    have e2 : max eps (2 : ℚ) = 2 := max_eq_right (by norm_num [eps])
    have e3 : max eps (3 : ℚ) = 3 := max_eq_right (by norm_num [eps])
    have e4 : max eps (4 : ℚ) = 4 := max_eq_right (by norm_num [eps])
    have e5 : max eps (5 : ℚ) = 5 := max_eq_right (by norm_num [eps])
    have hvwap : buildSessionVWAPArray [⟨0, 1, 1, 1, 1, some 1⟩, ⟨0, 1, 1, 1, 1, some 1⟩,
        ⟨0, 1, 1, 1, 1, some 1⟩, ⟨0, 1, 1, 1, 1, some 1⟩, ⟨0, 1, 1, 1, 1, some 1⟩] =
        [some 1, some 1, some 1, some 1, some 1] := by
      norm_num [buildSessionVWAPArray, vwapRun, vwapStep, vEff, tp, utcDay, e1, e2, e3, e4, e5]
    rw [hvwap]
    norm_num [rangeBad, rangeLo, rangeHi, optMin, optMax, visVals, List.range_succ,
      List.filterMap_cons, Option.elim, min_self, max_self]

/-! ### Linear regression (C7, C10) -/

lemma foldl_add_eq_sum (l : List ℚ) : ∀ c : ℚ, l.foldl (· + ·) c = c + l.sum := by
  induction l with
  | nil => intro c; simp
  | cons x t ih =>
    intro c
    rw [List.foldl_cons, ih (c + x), List.sum_cons]
    ring

lemma foldl_addsq_eq_sum (l : List ℚ) : ∀ c : ℚ,
    l.foldl (fun a b => a + b * b) c = c + (l.map (fun b => b * b)).sum := by
  induction l with
  | nil => intro c; simp
  | cons x t ih =>
    intro c
    rw [List.foldl_cons, ih (c + x * x), List.map_cons, List.sum_cons]
    ring

lemma sumXYAux_append (l1 l2 : List ℚ) : ∀ j : ℕ,
    sumXYAux j (l1 ++ l2) = sumXYAux j l1 + sumXYAux (j + l1.length) l2 := by
  induction l1 with
  | nil => intro j; simp [sumXYAux]
  | cons x t ih =>
    intro j
    show (j : ℚ) * x + sumXYAux (j + 1) (t ++ l2)
        = (j : ℚ) * x + sumXYAux (j + 1) t + sumXYAux (j + (x :: t).length) l2
    rw [ih (j + 1)]
    have h : j + 1 + t.length = j + (x :: t).length := by
      simp [List.length_cons]
      omega
    rw [h]
    ring

lemma sum_affine (a d : ℚ) : ∀ t : ℕ,
    (((List.range t).map (fun k : ℕ => a + d * (k : ℚ))).sum) * 2
      = 2 * a * t + d * t * (t - 1) := by
  intro t
  induction t with
  | zero => simp
  | succ n ih =>
    rw [List.range_succ, List.map_append, List.sum_append]
    simp only [List.map_cons, List.map_nil, List.sum_cons, List.sum_nil, add_zero]
    push_cast
    push_cast at ih
    linear_combination ih

lemma sumsq_range : ∀ t : ℕ,
    (((List.range t).map (fun k : ℕ => (k : ℚ) * (k : ℚ))).sum) * 6
      = t * (t - 1) * (2 * t - 1) := by
  intro t
  induction t with
  | zero => simp
  | succ n ih =>
    rw [List.range_succ, List.map_append, List.sum_append]
    simp only [List.map_cons, List.map_nil, List.sum_cons, List.sum_nil, add_zero]
    push_cast
    push_cast at ih
    linear_combination ih

lemma sumxy_affine (a d : ℚ) : ∀ t : ℕ,
    (sumXYAux 0 ((List.range t).map (fun k : ℕ => a + d * (k : ℚ)))) * 6
      = 3 * a * t * (t - 1) + d * t * (t - 1) * (2 * t - 1) := by
  intro t
  induction t with
  | zero => simp [sumXYAux]
  | succ n ih =>
    rw [List.range_succ, List.map_append, sumXYAux_append]
    simp only [List.map_cons, List.map_nil, List.length_map, List.length_range,
      Nat.zero_add, sumXYAux, add_zero]
    push_cast
    push_cast at ih
    linear_combination ih

lemma linregSumX_eq (len : ℕ) : linregSumX len * 2 = (len : ℚ) * ((len : ℚ) - 1) := by
  unfold linregSumX linregXs
  rw [foldl_add_eq_sum, zero_add]
  have hf : (fun j : ℕ => (j : ℚ)) = (fun k : ℕ => 0 + 1 * (k : ℚ)) := by
    funext k; ring
  rw [hf]
  have := sum_affine 0 1 len
  linarith

lemma linregSumXX_eq (len : ℕ) :
    linregSumXX len * 6 = (len : ℚ) * ((len : ℚ) - 1) * (2 * (len : ℚ) - 1) := by
  unfold linregSumXX linregXs
  rw [foldl_addsq_eq_sum, zero_add, List.map_map]
  have hf : ((fun b : ℚ => b * b) ∘ fun j : ℕ => (j : ℚ)) = (fun k : ℕ => (k : ℚ) * (k : ℚ)) := rfl
  rw [hf]
  exact sumsq_range len

lemma linregDenom_eq (len : ℕ) :
    linregDenom len = (len : ℚ) ^ 2 * ((len : ℚ) - 1) * ((len : ℚ) + 1) / 12 := by
  have h1 := linregSumX_eq len
  have h2 := linregSumXX_eq len
  have hSX : linregSumX len = (len : ℚ) * ((len : ℚ) - 1) / 2 := by linarith
  have hSXX : linregSumXX len = (len : ℚ) * ((len : ℚ) - 1) * (2 * (len : ℚ) - 1) / 6 := by
    linarith
  unfold linregDenom
  rw [hSX, hSXX]
  ring

lemma linregDenom_pos (len : ℕ) (h2 : 2 ≤ len) : 0 < linregDenom len := by
  have hn : (2 : ℚ) ≤ (len : ℚ) := by exact_mod_cast h2
  have hl : (0 : ℚ) < (len : ℚ) := by linarith
  have hp : (0 : ℚ) < (len : ℚ) ^ 2 * ((len : ℚ) - 1) * ((len : ℚ) + 1) :=
    mul_pos (mul_pos (pow_pos hl 2) (by linarith)) (by linarith)
  rw [linregDenom_eq]
  linarith

lemma drop_take_map_range (f : ℕ → ℚ) (N s t : ℕ) (h : s + t ≤ N) :
    (((List.range N).map f).drop s).take t = (List.range t).map (fun k => f (s + k)) := by
  apply List.ext_getElem
  · simp only [List.length_take, List.length_drop, List.length_map, List.length_range]
    omega
  · intro i h1 h2
    have hi : i < t := by
      simpa using h2
    have hsN : s + i < N := by omega
    rw [List.getElem_take _, List.getElem_drop _]
    rw [List.getElem_map _, List.getElem_map _]
    rw [List.getElem_range _ _, List.getElem_range _ _]

lemma getD_map_range (f : ℕ → Option ℚ) (n i : ℕ) :
    ((List.range n).map f).getD i none = if i < n then f i else none := by
  split
  · next h =>
    rw [List.getD_eq_getElem _ _ (by simpa using h)]
    rw [List.getElem_map _, List.getElem_range _ _]
  · next h =>
    exact List.getD_eq_default _ _ (by simpa using not_lt.mp h)

lemma getD_replicate_none (n i : ℕ) :
    (List.replicate n (none : Option ℚ)).getD i none = none := by
  by_cases h : i < n
  · rw [List.getD_eq_getElem _ _ (by simpa using h)]
    exact List.getElem_replicate _ _
  · exact List.getD_eq_default _ _ (by simpa using not_lt.mp h)

lemma linreg_window_affine (a d : ℚ) (N len i : ℕ) (hlen : len ≤ i + 1) (hi : i < N) :
    ((((List.range N).map (fun j : ℕ => a + d * (j : ℚ))).drop (i + 1 - len)).take len) =
      (List.range len).map
        (fun k : ℕ => (a + d * (((i + 1 - len : ℕ)) : ℚ)) + d * (k : ℚ)) := by
  rw [drop_take_map_range _ N (i + 1 - len) len (by omega)]
  apply List.map_congr_left
  intro k _
  push_cast
  ring

lemma linregAt_affine (len i : ℕ) (src : List ℚ) (b0 d : ℚ) (h2 : 2 ≤ len)
    (hwin : (src.drop (i + 1 - len)).take len
      = (List.range len).map (fun k : ℕ => b0 + d * (k : ℚ))) :
    linregAt src len i = some (d * ((len : ℚ) - 1) + b0) := by
  have hdpos := linregDenom_pos len h2
  have hd0 : ¬ linregDenom len = 0 := by
    intro h
    rw [h] at hdpos
    exact lt_irrefl 0 hdpos
  have hl : (2 : ℚ) ≤ (len : ℚ) := by exact_mod_cast h2
  have hn0 : ((len : ℚ)) ≠ 0 := by
    intro h
    rw [h] at hl
    linarith
  have h1 := linregSumX_eq len
  have hSX : linregSumX len = (len : ℚ) * ((len : ℚ) - 1) / 2 := by linarith
  have hsumY : ((List.range len).map (fun k : ℕ => b0 + d * (k : ℚ))).sum
      = ((len : ℚ) * b0 * 2 + d * (len : ℚ) * ((len : ℚ) - 1)) / 2 := by
    have := sum_affine b0 d len
    linarith
  have hsumXY : sumXYAux 0 ((List.range len).map (fun k : ℕ => b0 + d * (k : ℚ)))
      = (3 * b0 * (len : ℚ) * ((len : ℚ) - 1)
        + d * (len : ℚ) * ((len : ℚ) - 1) * (2 * (len : ℚ) - 1)) / 6 := by
    have := sumxy_affine b0 d len
    linarith
  have hden := linregDenom_eq len
  have hne : (len : ℚ) ^ 2 * ((len : ℚ) - 1) * ((len : ℚ) + 1) ≠ 0 := by
    have : 0 < (len : ℚ) ^ 2 * ((len : ℚ) - 1) * ((len : ℚ) + 1) :=
      mul_pos (mul_pos (pow_pos (by linarith) 2) (by linarith)) (by linarith)
    intro h
    rw [h] at this
    exact lt_irrefl 0 this
  unfold linregAt
  rw [hwin, if_neg hd0]
  rw [foldl_add_eq_sum, zero_add, hsumY, hsumXY, hSX, hden]
  refine congrArg some ?_
  field_simp
  ring

/-- Claim C7: the linear-regression projection is null at every index when the
series is shorter than the period and at every index before period samples
exist; and over an exactly affine series a + d*x, the projection at each
filled window's last index equals the true series value there. -/
theorem linreg_spec :
    (∀ (src : List ℚ) (len : ℕ), src.length < len →
      ∀ i, (linreg src len).getD i none = none) ∧
    (∀ (src : List ℚ) (len i : ℕ), i + 1 < len →
      (linreg src len).getD i none = none) ∧
    (∀ (a d : ℚ) (N len i : ℕ), 2 ≤ len → len ≤ i + 1 → i < N →
      (linreg ((List.range N).map (fun j : ℕ => a + d * (j : ℚ))) len).getD i none =
        some (a + d * (i : ℚ))) := by
  refine ⟨?_, ?_, ?_⟩
  · intro src len h i
    unfold linreg
    rw [if_pos h]
    exact getD_replicate_none _ _
  · intro src len i h
    unfold linreg
    split
    · exact getD_replicate_none _ _
    · rw [getD_map_range]
      by_cases hi : i < src.length
      · rw [if_pos hi, if_pos h]
      · rw [if_neg hi]
  · intro a d N len i h2 hlen hi
    have hsl : ((List.range N).map (fun j : ℕ => a + d * (j : ℚ))).length = N := by
      simp
    unfold linreg
    rw [if_neg (by rw [hsl]; omega)]
    rw [hsl, getD_map_range, if_pos hi, if_neg (by omega)]
    rw [linregAt_affine len i _ (a + d * (((i + 1 - len : ℕ)) : ℚ)) d h2
      (linreg_window_affine a d N len i hlen hi)]
    refine congrArg some ?_
    have hcast : (((i + 1 - len : ℕ)) : ℚ) = (i : ℚ) + 1 - (len : ℚ) := by
      rw [Nat.cast_sub hlen]
      push_cast
      ring
    rw [hcast]
    ring

/-- Witness for linreg_spec on the affine series 1 + 2x of length 2 with
period 2: the projection at index 1 is the true value 3. -/
theorem linreg_spec_witness :
    (linreg ((List.range 2).map (fun j : ℕ => (1 : ℚ) + 2 * (j : ℚ))) 2).getD 1 none =
      some ((1 : ℚ) + 2 * ((1 : ℕ) : ℚ)) :=
  linreg_spec.2.2 1 2 2 2 1 (by decide) (by decide) (by decide)

/-- Claim C10: for every period of at least 2 the OLS denominator is strictly
positive, so the denom === 0 skip branch is unreachable and every index from
len - 1 onward of a sufficiently long series receives a non-null output. -/
theorem linreg_denom_safety :
    (∀ len : ℕ, 2 ≤ len → 0 < linregDenom len) ∧
    (∀ (src : List ℚ) (len : ℕ), 2 ≤ len → len ≤ src.length →
      ∀ i, len - 1 ≤ i → i < src.length →
        ((linreg src len).getD i none).isSome = true) := by
  refine ⟨fun len h => linregDenom_pos len h, ?_⟩
  intro src len h2 hlen i hi1 hi2
  have hdpos := linregDenom_pos len h2
  have hd0 : ¬ linregDenom len = 0 := by
    intro h
    rw [h] at hdpos
    exact lt_irrefl 0 hdpos
  unfold linreg
  rw [if_neg (by omega)]
  rw [getD_map_range, if_pos hi2, if_neg (by omega)]
  unfold linregAt
  rw [if_neg hd0]
  rfl

/-- Witness for linreg_denom_safety at period 2 on the series [0, 1]. -/
theorem linreg_denom_safety_witness :
    0 < linregDenom 2 ∧ ((linreg [(0 : ℚ), 1] 2).getD 1 none).isSome = true :=
  ⟨linreg_denom_safety.1 2 (by decide),
   linreg_denom_safety.2 [(0 : ℚ), 1] 2 (by decide) (by decide) 1 (by decide) (by decide)⟩

end UltimateBot
